import Mathlib

/-! Shallow embedding of `python/aliases.py`, the alias-management script of
this repository: its registry data model, the generator `collect_managed`,
and the reconciler operations `fix` and `check`, together with theorems
settling the claims of the specification about them. Paths are modelled as lists
of components relative to the root directory, and the filesystem as an
association of paths to file contents. -/

namespace Aliases

/-- Options of an alias declaration. Modelled from the spec: the support
module `hopsworks.internal.aliases` that defines registry entries is not
part of this source slice; the spec describes the options record as asAlias
(optional string), deprecated (boolean), availableUntil (optional string).
The record has no `available` attribute, which matters for the
deprecation-rendering branch of `collect_managed`. -/
structure AliasOptions where
  as_alias : Option String
  deprecated : Bool
  available_until : Option String
deriving DecidableEq

/-- One registry entry `(f, i, im)`: export name `i` of module `f` with
options `im`, as iterated by `for f, i, im in imports`. -/
structure Decl where
  f : String
  i : String
  im : AliasOptions
deriving DecidableEq

/-- The registry: destination package (dotted name) with its declarations.
Modelled from the spec: `Registry.get_modules()` returns a mapping from
destination package path to the list of declarations; a dict has distinct
keys, so theorems assume the key lists are duplicate-free where needed. -/
abbrev Registry := List (String × List Decl)

/-- A file path, as components relative to the root directory. -/
abbrev Path := List String

/-- A file tree: association of paths to file contents. -/
abbrev Tree := List (Path × String)

/-- Python truthiness of an optional string (`None` and `""` are falsy). -/
def truthy : Option String → Bool
  | none => false
  | some s => s != ""

/-- Splits a character list at every dot, keeping empty pieces; `acc` holds
the characters of the current piece in reverse. -/
def splitDotsAux : List Char → List Char → List String
  | [], acc => [String.mk acc.reverse]
  | c :: cs, acc =>
    if c.toNat = 46 then String.mk acc.reverse :: splitDotsAux cs []
    else splitDotsAux cs (c :: acc)

/-- The components of `pkg.replace(".", "/")`: the dotted name split at the
dots. -/
def splitDots (s : String) : List String := splitDotsAux s.data []

/-- `root / pkg.replace(".", "/") / "__init__.py"`, relative to the root. -/
def pkgPath (pkg : String) : Path := splitDots pkg ++ ["__init__.py"]

/-- The fixed two-line header of every generated file. -/
def header : String :=
  "# ruff: noqa\n# This file is generated by aliases.py. Do not edit it manually!\n"

/-- Abnormal termination of generation: the alias-collision `exit(1)`, and
the `AttributeError` raised by evaluating `im.available.until` on an options
record that has no `available` attribute. -/
inductive GenError where
  | collision (original aliasName : String) (pkg : Path)
  | attributeError
deriving DecidableEq

/-- `im.as_alias if im.as_alias else i`. -/
def exportName (d : Decl) : String :=
  match d.im.as_alias with
  | some s => if s != "" then s else d.i
  | none => d.i

/-- State of the per-package generation loop of `collect_managed`. -/
structure RenderState where
  content : String
  imported_modules : List String
  declared_names : List String
deriving DecidableEq

/-- Body of the loop `for f, i, im in imports` in `collect_managed`. The
source never inserts into `declared_names`, and the embedding mirrors that.
When the declaration is deprecated and `available_until` is truthy, the
source evaluates `im.available.until`; the options record has no
`available` attribute, so this raises `AttributeError`. -/
def processDecl (pkg : Path) (st : RenderState) (d : Decl) : Except GenError RenderState :=
  let original := d.f ++ "." ++ d.i
  let a := exportName d
  if a ∈ st.declared_names then
    .error (.collision original a pkg)
  else
    let st :=
      if d.f ∈ st.imported_modules then st
      else { st with
              content := st.content ++ "import " ++ d.f ++ "\n"
              imported_modules := st.imported_modules ++ [d.f] }
    if d.im.deprecated then
      if truthy d.im.available_until then
        .error .attributeError
      else
        .ok { st with content :=
                st.content ++ a ++ " = hopsworks.internal.aliases.deprecated()(" ++ original ++ ")\n" }
    else
      .ok { st with content := st.content ++ a ++ " = " ++ original ++ "\n" }

/-- Strict lexicographic comparison of character lists by code point, the
order Python uses to compare strings. -/
def strLtb : List Char → List Char → Bool
  | [], [] => false
  | [], _ :: _ => true
  | _ :: _, [] => false
  | a :: as, b :: bs =>
    if a.toNat < b.toNat then true
    else if b.toNat < a.toNat then false
    else strLtb as bs

/-- The ordering used by `imports.sort()`: Python sorts the tuples
`(f, i, im)` lexicographically; on distinct `(f, i)` keys this is the
lexicographic order on `(f, i)`. -/
def declLeb (a b : Decl) : Bool :=
  strLtb a.f.data b.f.data ||
    (a.f == b.f && (strLtb a.i.data b.i.data || a.i == b.i))

/-- The sort relation as a proposition. -/
def declLe (a b : Decl) : Prop := declLeb a b = true

instance : DecidableRel declLe := fun a b =>
  inferInstanceAs (Decidable (declLeb a b = true))

/-- The sort key of a registry entry. -/
def declKey (d : Decl) : String × String := (d.f, d.i)

/-- The content generated for one destination package: header; if there are
declarations, the aliasing-support import, then the sorted declarations
processed in order. `pkg` is the destination file path (the loop variable
`pkg` is rebound to the path before the loop, so the collision message
carries the path). -/
def renderPkg (pkg : Path) (imports : List Decl) : Except GenError String :=
  if imports.isEmpty then .ok header
  else
    let sorted := imports.insertionSort declLe
    let init : RenderState :=
      ⟨header ++ "import hopsworks.internal.aliases\n", ["hopsworks.internal.aliases"], []⟩
    (sorted.foldlM (processDecl pkg) init).map RenderState.content

/-- `collect_managed`: the mapping from generated file path to its exact
expected content, derived from the registry, built entry by entry in
registry order; abnormal termination while rendering a package aborts the
whole computation, discarding the partial mapping. -/
def collect_managed : Registry → Except GenError (List (Path × String))
  | [] => .ok []
  | e :: reg => do
    let c ← renderPkg (pkgPath e.1) e.2
    let rest ← collect_managed reg
    .ok ((pkgPath e.1, c) :: rest)

/-- Reading a file of the tree: the content at the first entry with the
given path, if any. -/
def lookupTree : Tree → Path → Option String
  | [], _ => none
  | e :: t, p => if e.1 = p then some e.2 else lookupTree t p

/-- `filepath.write_text(content)` (with `mkdir` and `touch` before it):
replaces the content at the path if the file exists, creates it otherwise. -/
def writeFile (t : Tree) (p : Path) (c : String) : Tree :=
  if lookupTree t p = none then t ++ [(p, c)]
  else t.map (fun e => if e.1 = p then (p, c) else e)

/-- The configured source roots, as component paths relative to the root. -/
def SOURCES : List Path :=
  [["hopsworks", "__init__.py"], ["hopsworks", "connection.py"],
   ["hopsworks", "internal"], ["hopsworks", "platform"],
   ["hopsworks", "fs"], ["hopsworks", "ml"]]

/-- The configured ignored paths, as component paths relative to the root. -/
def IGNORED : List Path :=
  [["tests"], ["hsfs"], ["hopsworks"], ["hsml"], ["hopsworks_common"],
   ["hopsworks.egg-info"]]

/-- `path.is_relative_to(q)`: the components of `q` lead the components of
the path. -/
def isUnder (q p : Path) : Bool := decide (q = p.take q.length)

/-- `any(path.is_relative_to(p) for p in ignored)` with
`ignored = [root / path for path in SOURCES + IGNORED]`. -/
def underIgnored (p : Path) : Bool := (SOURCES ++ IGNORED).any (fun q => isUnder q p)

/-- The walk predicate `remove_if_excess` of `fix`: delete the file unless
it sits directly in the root, lies under a source root or ignored path, or
is a managed path. -/
def remove_if_excess (managedKeys : List Path) (p : Path) : Bool :=
  if p.length = 1 then false
  else if underIgnored p then false
  else decide (p ∉ managedKeys)

/-- The writing loop of `fix`: write every managed file in order. -/
def writeAll (managed : List (Path × String)) (t : Tree) : Tree :=
  managed.foldl (fun acc e => writeFile acc e.1 e.2) t

/-- `fix`: write every managed file, then delete every file the walk marks
as excess. Aborts, leaving the tree unchanged, when `collect_managed`
terminates the process. -/
def fix (reg : Registry) (t : Tree) : Except GenError Tree := do
  let managed ← collect_managed reg
  .ok ((writeAll managed t).filter
    (fun e => !remove_if_excess (managed.map Prod.fst) e.1))

/-- Whether the characters of `suf` close the characters of `s`. -/
def strEndsWith (s suf : String) : Bool :=
  decide (suf.data = s.data.drop (s.data.length - suf.data.length))

/-- `path.suffix == ".pyc"` for the final path component: in Python the
`suffix` of a bare `".pyc"` name is empty. -/
def suffixIsPyc (s : String) : Bool := strEndsWith s ".pyc" && s != ".pyc"

/-- The walk predicate `check_file` of `check`: report the file unless it
sits directly in the root, lies under a source root or ignored path, is
bytecode or cache, or is a managed path. -/
def check_file_reports (managedKeys : List Path) (p : Path) : Bool :=
  if p.length = 1 ∨ underIgnored p = true then false
  else if suffixIsPyc (p.getLastD "") = true ∨ p.contains "__pycache__" = true then false
  else decide (p ∉ managedKeys)

/-- One step of the first reporting loop of `check`: a managed file that
does not exist or whose content differs from the expected one is recorded
as an error. -/
def managedFileStep (t : Tree) (errs : List Path) (e : Path × String) : List Path :=
  match lookupTree t e.1 with
  | none => errs ++ [e.1]
  | some c => if c = e.2 then errs else errs ++ [e.1]

/-- The first reporting loop of `check` over all managed files. -/
def managedFileErrors (t : Tree) (managed : List (Path × String)) : List Path :=
  managed.foldl (managedFileStep t) []

/-- `check`: the list of paths reported as errors; `check` prints the
success message and exits 0 exactly when this list is empty, and prints the
errors and exits 1 otherwise. Aborts when `collect_managed` terminates the
process. -/
def check (reg : Registry) (t : Tree) : Except GenError (List Path) := do
  let managed ← collect_managed reg
  .ok (managedFileErrors t managed ++
    (t.filter (fun e => check_file_reports (managed.map Prod.fst) e.1)).map Prod.fst)

/-! ### Properties of the sort order -/

lemma strLtb_cons_of_lt {a b : Char} (as bs : List Char) (h : a.toNat < b.toNat) :
    strLtb (a :: as) (b :: bs) = true := by
  simp [strLtb, h]

lemma strLtb_cons_of_gt {a b : Char} (as bs : List Char) (h : b.toNat < a.toNat) :
    strLtb (a :: as) (b :: bs) = false := by
  simp [strLtb, h, Nat.lt_asymm h]

lemma strLtb_cons_of_eq {a b : Char} (as bs : List Char) (h : a.toNat = b.toNat) :
    strLtb (a :: as) (b :: bs) = strLtb as bs := by
  simp [strLtb, h, Nat.lt_irrefl]

lemma strLtb_irrefl : ∀ l : List Char, strLtb l l = false
  | [] => rfl
  | c :: cs => by rw [strLtb_cons_of_eq cs cs rfl]; exact strLtb_irrefl cs

lemma strLtb_trans : ∀ {a b c : List Char},
    strLtb a b = true → strLtb b c = true → strLtb a c = true
  | [], [], _, hab, _ => by simp [strLtb] at hab
  | [], _ :: _, [], _, hbc => by simp [strLtb] at hbc
  | [], _ :: _, _ :: _, _, _ => rfl
  | _ :: _, [], _, hab, _ => by simp [strLtb] at hab
  | _ :: _, _ :: _, [], _, hbc => by simp [strLtb] at hbc
  | a :: as, b :: bs, c :: cs, hab, hbc => by
    rcases Nat.lt_trichotomy a.toNat b.toNat with h₁ | h₁ | h₁
    · rcases Nat.lt_trichotomy b.toNat c.toNat with h₂ | h₂ | h₂
      · exact strLtb_cons_of_lt as cs (Nat.lt_trans h₁ h₂)
      · exact strLtb_cons_of_lt as cs (h₂ ▸ h₁)
      · rw [strLtb_cons_of_gt bs cs h₂] at hbc; exact absurd hbc (by simp)
    · rw [strLtb_cons_of_eq as bs h₁] at hab
      rcases Nat.lt_trichotomy b.toNat c.toNat with h₂ | h₂ | h₂
      · exact strLtb_cons_of_lt as cs (h₁ ▸ h₂)
      · rw [strLtb_cons_of_eq bs cs h₂] at hbc
        rw [strLtb_cons_of_eq as cs (h₁.trans h₂)]
        exact strLtb_trans hab hbc
      · rw [strLtb_cons_of_gt bs cs h₂] at hbc; exact absurd hbc (by simp)
    · rw [strLtb_cons_of_gt as bs h₁] at hab; exact absurd hab (by simp)

lemma strLtb_asymm : ∀ {a b : List Char},
    strLtb a b = true → strLtb b a = false
  | [], [], hab => by simp [strLtb] at hab
  | [], _ :: _, _ => rfl
  | _ :: _, [], hab => by simp [strLtb] at hab
  | a :: as, b :: bs, hab => by
    rcases Nat.lt_trichotomy a.toNat b.toNat with h | h | h
    · exact strLtb_cons_of_gt bs as h
    · rw [strLtb_cons_of_eq as bs h] at hab
      rw [strLtb_cons_of_eq bs as h.symm]
      exact strLtb_asymm hab
    · rw [strLtb_cons_of_gt as bs h] at hab; exact absurd hab (by simp)

lemma strLtb_eq_of_not_lt : ∀ {a b : List Char},
    strLtb a b = false → strLtb b a = false → a = b
  | [], [], _, _ => rfl
  | [], _ :: _, hab, _ => by simp [strLtb] at hab
  | _ :: _, [], _, hba => by simp [strLtb] at hba
  | a :: as, b :: bs, hab, hba => by
    rcases Nat.lt_trichotomy a.toNat b.toNat with h | h | h
    · rw [strLtb_cons_of_lt as bs h] at hab; exact absurd hab (by simp)
    · rw [strLtb_cons_of_eq as bs h] at hab
      rw [strLtb_cons_of_eq bs as h.symm] at hba
      have hc : a = b := Char.ext (UInt32.toNat.inj h)
      rw [hc, strLtb_eq_of_not_lt hab hba]
    · rw [strLtb_cons_of_lt bs as h] at hba; exact absurd hba (by simp)

lemma str_eq_of_data_eq {a b : String} (h : a.data = b.data) : a = b :=
  congrArg String.mk h

lemma declLe_trans : ∀ a b c : Decl, declLe a b → declLe b c → declLe a c := by
  intro a b c hab hbc
  simp only [declLe, declLeb, Bool.or_eq_true, Bool.and_eq_true, beq_iff_eq] at hab hbc ⊢
  rcases hab with hab | ⟨hfab, hiab⟩
  · rcases hbc with hbc | ⟨hfbc, hibc⟩
    · exact Or.inl (strLtb_trans hab hbc)
    · exact Or.inl (hfbc ▸ hab)
  · rcases hbc with hbc | ⟨hfbc, hibc⟩
    · exact Or.inl (hfab ▸ hbc)
    · refine Or.inr ⟨hfab.trans hfbc, ?_⟩
      rcases hiab with hiab | hiab
      · rcases hibc with hibc | hibc
        · exact Or.inl (strLtb_trans hiab hibc)
        · exact Or.inl (hibc ▸ hiab)
      · rcases hibc with hibc | hibc
        · exact Or.inl (hiab ▸ hibc)
        · exact Or.inr (hiab.trans hibc)

lemma declLe_total : ∀ a b : Decl, declLe a b ∨ declLe b a := by
  intro a b
  simp only [declLe, declLeb, Bool.or_eq_true, Bool.and_eq_true, beq_iff_eq]
  cases hf : strLtb a.f.data b.f.data
  · cases hf' : strLtb b.f.data a.f.data
    · have hfeq : a.f = b.f := str_eq_of_data_eq (strLtb_eq_of_not_lt hf hf')
      cases hi : strLtb a.i.data b.i.data
      · cases hi' : strLtb b.i.data a.i.data
        · have hieq : a.i = b.i := str_eq_of_data_eq (strLtb_eq_of_not_lt hi hi')
          exact Or.inl (Or.inr ⟨hfeq, Or.inr hieq⟩)
        · exact Or.inr (Or.inr ⟨hfeq.symm, Or.inl rfl⟩)
      · exact Or.inl (Or.inr ⟨hfeq, Or.inl rfl⟩)
    · exact Or.inr (Or.inl rfl)
  · exact Or.inl (Or.inl rfl)

instance : IsTrans Decl declLe := ⟨declLe_trans⟩

instance : IsTotal Decl declLe := ⟨declLe_total⟩

lemma declKey_eq_of_le_ge {a b : Decl} (hab : declLe a b) (hba : declLe b a) :
    declKey a = declKey b := by
  simp only [declLe, declLeb, Bool.or_eq_true, Bool.and_eq_true, beq_iff_eq] at hab hba
  rcases hab with hab | ⟨hfab, hiab⟩
  · rcases hba with hba | ⟨hfba, _⟩
    · rw [strLtb_asymm hba] at hab; exact absurd hab (by simp)
    · rw [hfba] at hab; rw [strLtb_irrefl] at hab; exact absurd hab (by simp)
  · rcases hba with hba | ⟨_, hiba⟩
    · rw [hfab] at hba; rw [strLtb_irrefl] at hba; exact absurd hba (by simp)
    · rcases hiab with hiab | hiab
      · rcases hiba with hiba | hiba
        · rw [strLtb_asymm hiba] at hiab; exact absurd hiab (by simp)
        · rw [hiba] at hiab; rw [strLtb_irrefl] at hiab; exact absurd hiab (by simp)
      · simp [declKey, hfab, hiab]

/-- Two lists sorted by `declLe` that are permutations of each other and
have duplicate-free sort keys are equal. -/
lemma eq_of_perm_of_sorted_of_nodup_keys : ∀ {l₁ l₂ : List Decl},
    l₁.Perm l₂ → l₁.Sorted declLe → l₂.Sorted declLe →
    (l₁.map declKey).Nodup → l₁ = l₂ := by
  intro l₁
  induction l₁ with
  | nil => intro l₂ hp _ _ _; exact (hp.nil_eq).symm ▸ rfl
  | cons a t₁ ih =>
    intro l₂ hp hs₁ hs₂ hnd
    cases l₂ with
    | nil => exact absurd hp.symm.nil_eq (by simp)
    | cons b t₂ =>
      have hab : a = b := by
        by_contra hne
        have ha : a ∈ b :: t₂ := hp.mem_iff.mp (List.mem_cons_self a t₁)
        have ha' : a ∈ t₂ := by
          rcases List.mem_cons.mp ha with h | h
          · exact absurd h hne
          · exact h
        have hb : b ∈ a :: t₁ := hp.symm.mem_iff.mp (List.mem_cons_self b t₂)
        have hb' : b ∈ t₁ := by
          rcases List.mem_cons.mp hb with h | h
          · exact absurd h.symm hne
          · exact h
        have h₁ : declLe a b := (List.sorted_cons.mp hs₁).1 b hb'
        have h₂ : declLe b a := (List.sorted_cons.mp hs₂).1 a ha'
        have hkey : declKey a = declKey b := declKey_eq_of_le_ge h₁ h₂
        have : declKey a ∉ t₁.map declKey := (List.nodup_cons.mp hnd).1
        exact this (hkey ▸ List.mem_map_of_mem declKey hb')
      subst hab
      have ht : t₁.Perm t₂ := hp.cons_inv
      have := ih ht (List.sorted_cons.mp hs₁).2 (List.sorted_cons.mp hs₂).2
        (List.nodup_cons.mp hnd).2
      rw [this]

/-- Sorting is invariant under permutation when the sort keys are
duplicate-free. -/
lemma insertionSort_perm_eq {l₁ l₂ : List Decl} (hp : l₁.Perm l₂)
    (hnd : (l₁.map declKey).Nodup) :
    l₁.insertionSort declLe = l₂.insertionSort declLe := by
  apply eq_of_perm_of_sorted_of_nodup_keys
  · exact (List.perm_insertionSort declLe l₁).trans
      (hp.trans (List.perm_insertionSort declLe l₂).symm)
  · exact List.sorted_insertionSort declLe l₁
  · exact List.sorted_insertionSort declLe l₂
  · exact ((List.perm_insertionSort declLe l₁).map declKey).nodup_iff.mpr hnd

/-! ### Claims about the generator -/

/-- A registry in which two declarations of one destination package resolve
to the same exported name `Foo`. -/
def collisionReg : Registry :=
  [("pkg", [⟨"a", "Foo", ⟨none, false, none⟩⟩, ⟨"b", "Foo", ⟨none, false, none⟩⟩])]

/-- Claim C1: the spec requires generation to fail with a collision
diagnostic and exit status 1 when two declarations of one destination
package resolve to the same exported name. The code does not: the loop in
`collect_managed` never inserts into `declared_names`, so the collision
branch is unreachable and generation succeeds, emitting both binding lines
(`Foo = a.Foo` then `Foo = b.Foo`), with the later one silently winning
when the generated module is loaded. -/
theorem C1_collision_undetected :
    collect_managed collisionReg =
      .ok [(["pkg", "__init__.py"],
        "# ruff: noqa\n# This file is generated by aliases.py. Do not edit it manually!\nimport hopsworks.internal.aliases\nimport a\nFoo = a.Foo\nimport b\nFoo = b.Foo\n")] := by
  rfl

/-- Claim C2: a registry with the single destination package `pkg.sub`
holding the single non-deprecated declaration
(fromModule `pkg.impl`, importedName `Foo`, no alias) generates exactly the
two header lines, the aliasing-support import, `import pkg.impl`, and
`Foo = pkg.impl.Foo`, with nothing else. -/
theorem C2_single_alias_content :
    collect_managed [("pkg.sub", [⟨"pkg.impl", "Foo", ⟨none, false, none⟩⟩])] =
      .ok [(["pkg", "sub", "__init__.py"],
        "# ruff: noqa\n# This file is generated by aliases.py. Do not edit it manually!\nimport hopsworks.internal.aliases\nimport pkg.impl\nFoo = pkg.impl.Foo\n")] := by
  rfl

/-- Claim C3: for a deprecated declaration without an available-until value
the binding is wrapped as `hopsworks.internal.aliases.deprecated()(...)` as
the claim states; but when an available-until value is supplied the source
evaluates `im.available.until`, an attribute the options record does not
have, so generation raises `AttributeError` instead of rendering
`deprecated(available_until="...")(...)`. -/
theorem C3_deprecated_rendering :
    renderPkg ["pkg", "sub", "__init__.py"] [⟨"pkg.impl", "Foo", ⟨none, true, none⟩⟩] =
      .ok "# ruff: noqa\n# This file is generated by aliases.py. Do not edit it manually!\nimport hopsworks.internal.aliases\nimport pkg.impl\nFoo = hopsworks.internal.aliases.deprecated()(pkg.impl.Foo)\n"
    ∧ renderPkg ["pkg", "sub", "__init__.py"] [⟨"pkg.impl", "Foo", ⟨none, true, some "4.0"⟩⟩] =
      .error .attributeError :=
  ⟨rfl, rfl⟩

/-- Claim C4: the content generated for a destination package depends only
on the set of its declarations, not on their insertion or iteration order:
permuted declaration lists (with duplicate-free sort keys, without which
the Python tuple sort is itself undefined) render byte-identical content.
Registry iteration order cannot influence a package's content either, since
`collect_managed` renders each entry independently. -/
theorem C4_generator_deterministic (pkg : Path) (l₁ l₂ : List Decl)
    (hperm : l₁.Perm l₂) (hnd : (l₁.map declKey).Nodup) :
    renderPkg pkg l₁ = renderPkg pkg l₂ := by
  cases l₁ with
  | nil =>
    rw [← hperm.nil_eq]
  | cons a t₁ =>
    cases l₂ with
    | nil => exact absurd hperm.eq_nil (by simp)
    | cons b t₂ =>
      unfold renderPkg
      rw [show (a :: t₁).insertionSort declLe = (b :: t₂).insertionSort declLe from
        insertionSort_perm_eq hperm hnd]
      rfl

/-- Witness for C4 at a concrete pair of permuted declaration lists. -/
theorem C4_generator_deterministic_witness :
    renderPkg ["pkg", "__init__.py"]
        [⟨"b", "Foo", ⟨none, false, none⟩⟩, ⟨"a", "Bar", ⟨none, false, none⟩⟩] =
      renderPkg ["pkg", "__init__.py"]
        [⟨"a", "Bar", ⟨none, false, none⟩⟩, ⟨"b", "Foo", ⟨none, false, none⟩⟩] :=
  C4_generator_deterministic _ _ _ (List.Perm.swap _ _ _) (by decide)

/-- Claim C9: the spec expects `fix` to exit with status 1 before any
filesystem mutation when the registry holds an alias collision. Because the
collision check of `collect_managed` is unreachable, `fix` instead runs to
completion on the colliding registry and writes the generated file. -/
theorem C9_fix_mutates_on_collision :
    fix collisionReg [] =
      .ok [(["pkg", "__init__.py"],
        "# ruff: noqa\n# This file is generated by aliases.py. Do not edit it manually!\nimport hopsworks.internal.aliases\nimport a\nFoo = a.Foo\nimport b\nFoo = b.Foo\n")] := by
  rfl

/-! ### Properties of the filesystem model -/

lemma lookupTree_eq_none_iff {t : Tree} {p : Path} :
    lookupTree t p = none ↔ ∀ e ∈ t, e.1 ≠ p := by
  induction t with
  | nil => simp [lookupTree]
  | cons e t ih =>
    by_cases he : e.1 = p
    · simp [lookupTree, he]
    · simp [lookupTree, he, ih]

lemma lookupTree_append_of_none {t : Tree} {p : Path}
    (h : lookupTree t p = none) (l : Tree) :
    lookupTree (t ++ l) p = lookupTree l p := by
  induction t with
  | nil => rfl
  | cons e t ih =>
    by_cases he : e.1 = p
    · simp [lookupTree, he] at h
    · simp only [lookupTree, he, if_false, List.cons_append] at h ⊢
      exact ih h

lemma lookupTree_map_write {t : Tree} {p : Path} (c : String)
    (h : lookupTree t p ≠ none) :
    lookupTree (t.map (fun e => if e.1 = p then (p, c) else e)) p = some c := by
  induction t with
  | nil => exact absurd rfl h
  | cons e t ih =>
    by_cases he : e.1 = p
    · simp [lookupTree, he]
    · simp only [lookupTree, he, if_false] at h
      simp only [List.map_cons, he, if_false, lookupTree]
      exact ih h

lemma lookupTree_write_self (t : Tree) (p : Path) (c : String) :
    lookupTree (writeFile t p c) p = some c := by
  unfold writeFile
  by_cases h : lookupTree t p = none
  · rw [if_pos h, lookupTree_append_of_none h]
    simp [lookupTree]
  · rw [if_neg h]
    exact lookupTree_map_write c h

lemma lookupTree_append_single_ne (t : Tree) {p : Path} (c : String) {q : Path}
    (h : p ≠ q) :
    lookupTree (t ++ [(p, c)]) q = lookupTree t q := by
  induction t with
  | nil => simp [lookupTree, h]
  | cons e t ih =>
    by_cases he : e.1 = q
    · simp [lookupTree, he]
    · simp only [List.cons_append, lookupTree, he, if_false]
      exact ih

lemma lookupTree_map_write_ne (t : Tree) {p : Path} (c : String) {q : Path}
    (h : p ≠ q) :
    lookupTree (t.map (fun e => if e.1 = p then (p, c) else e)) q = lookupTree t q := by
  induction t with
  | nil => rfl
  | cons e t ih =>
    by_cases hep : e.1 = p
    · have heq : e.1 ≠ q := fun hc => h (hep ▸ hc)
      simp only [List.map_cons, lookupTree]
      rw [if_pos hep, if_neg h, if_neg heq]
      exact ih
    · simp only [List.map_cons, lookupTree]
      rw [if_neg hep]
      by_cases heq : e.1 = q
      · simp [heq]
      · rw [if_neg heq, if_neg heq]
        exact ih

lemma lookupTree_write_ne (t : Tree) {p : Path} (c : String) {q : Path}
    (h : p ≠ q) :
    lookupTree (writeFile t p c) q = lookupTree t q := by
  unfold writeFile
  by_cases hn : lookupTree t p = none
  · rw [if_pos hn]
    exact lookupTree_append_single_ne t c h
  · rw [if_neg hn]
    exact lookupTree_map_write_ne t c h

lemma writeAll_cons (m : Path × String) (ms : List (Path × String)) (t : Tree) :
    writeAll (m :: ms) t = writeAll ms (writeFile t m.1 m.2) := rfl

lemma lookupTree_writeAll_not_mem : ∀ (ms : List (Path × String)) (t : Tree) {q : Path},
    q ∉ ms.map Prod.fst → lookupTree (writeAll ms t) q = lookupTree t q
  | [], _, _, _ => rfl
  | m :: ms, t, q, h => by
    have h1 : m.1 ≠ q := fun he => h (by simp [he])
    have h2 : q ∉ ms.map Prod.fst := fun hq => h (by simp [hq])
    rw [writeAll_cons, lookupTree_writeAll_not_mem ms _ h2, lookupTree_write_ne _ _ h1]

lemma lookupTree_writeAll_mem :
    ∀ (ms : List (Path × String)) (t : Tree) {p : Path} {c : String},
    (ms.map Prod.fst).Nodup → (p, c) ∈ ms → lookupTree (writeAll ms t) p = some c
  | [], _, _, _, _, hm => absurd hm (by simp)
  | m :: ms, t, p, c, hnd, hm => by
    rcases List.mem_cons.mp hm with heq | hm'
    · subst heq
      have hp : p ∉ ms.map Prod.fst := by simpa using (List.nodup_cons.mp hnd).1
      rw [writeAll_cons, lookupTree_writeAll_not_mem ms _ hp]
      exact lookupTree_write_self t p c
    · rw [writeAll_cons]
      exact lookupTree_writeAll_mem ms _ (List.nodup_cons.mp hnd).2 hm'

lemma writeFile_entry_eq {t : Tree} {p : Path} {c : String} :
    ∀ e ∈ writeFile t p c, e.1 = p → e = (p, c) := by
  intro e he hep
  unfold writeFile at he
  by_cases hn : lookupTree t p = none
  · rw [if_pos hn] at he
    rcases List.mem_append.mp he with h | h
    · exact absurd hep (lookupTree_eq_none_iff.mp hn e h)
    · simpa using h
  · rw [if_neg hn] at he
    rcases List.mem_map.mp he with ⟨e', he', hfe⟩
    by_cases hep' : e'.1 = p
    · rw [if_pos hep'] at hfe
      exact hfe.symm
    · rw [if_neg hep'] at hfe
      subst hfe
      exact absurd hep hep'

lemma writeFile_entry_mem {t : Tree} {p : Path} {c : String} :
    ∀ e ∈ writeFile t p c, e.1 ≠ p → e ∈ t := by
  intro e he hep
  unfold writeFile at he
  by_cases hn : lookupTree t p = none
  · rw [if_pos hn] at he
    rcases List.mem_append.mp he with h | h
    · exact h
    · have : e = (p, c) := by simpa using h
      subst this
      exact absurd rfl hep
  · rw [if_neg hn] at he
    rcases List.mem_map.mp he with ⟨e', he', hfe⟩
    by_cases hep' : e'.1 = p
    · rw [if_pos hep'] at hfe
      subst hfe
      exact absurd rfl hep
    · rw [if_neg hep'] at hfe
      subst hfe
      exact he'

lemma writeAll_entry_of_not_key : ∀ (ms : List (Path × String)) (t : Tree) {q : Path},
    q ∉ ms.map Prod.fst → ∀ e ∈ writeAll ms t, e.1 = q → e ∈ t
  | [], _, _, _, _, he, _ => he
  | m :: ms, t, q, h, e, he, heq => by
    have h1 : m.1 ≠ q := fun hc => h (by simp [hc])
    have h2 : q ∉ ms.map Prod.fst := fun hc => h (by simp [hc])
    rw [writeAll_cons] at he
    have he' : e ∈ writeFile t m.1 m.2 := writeAll_entry_of_not_key ms _ h2 e he heq
    exact writeFile_entry_mem e he' (by rw [heq]; exact fun hc => h1 hc.symm)

lemma writeAll_entry_eq : ∀ (ms : List (Path × String)) (t : Tree) {p : Path} {c : String},
    (ms.map Prod.fst).Nodup → (p, c) ∈ ms →
    ∀ e ∈ writeAll ms t, e.1 = p → e = (p, c)
  | [], _, _, _, _, hm, _, _, _ => absurd hm (by simp)
  | m :: ms, t, p, c, hnd, hm, e, he, hep => by
    rcases List.mem_cons.mp hm with heq | hm'
    · subst heq
      have hp : p ∉ ms.map Prod.fst := by simpa using (List.nodup_cons.mp hnd).1
      rw [writeAll_cons] at he
      have he' : e ∈ writeFile t p c := writeAll_entry_of_not_key ms _ hp e he hep
      exact writeFile_entry_eq e he' hep
    · rw [writeAll_cons] at he
      exact writeAll_entry_eq ms _ (List.nodup_cons.mp hnd).2 hm' e he hep

lemma map_write_id {t : Tree} {p : Path} {c : String}
    (hall : ∀ e ∈ t, e.1 = p → e = (p, c)) :
    t.map (fun e => if e.1 = p then (p, c) else e) = t := by
  induction t with
  | nil => rfl
  | cons e t ih =>
    have htail : t.map (fun e => if e.1 = p then (p, c) else e) = t :=
      ih (fun e' he' hep => hall e' (List.mem_cons_of_mem e he') hep)
    by_cases hep : e.1 = p
    · rw [List.map_cons, if_pos hep, htail, ← hall e (List.mem_cons_self e t) hep]
    · rw [List.map_cons, if_neg hep, htail]

lemma writeFile_id {t : Tree} {p : Path} {c : String}
    (hsome : lookupTree t p ≠ none)
    (hall : ∀ e ∈ t, e.1 = p → e = (p, c)) :
    writeFile t p c = t := by
  unfold writeFile
  rw [if_neg hsome]
  exact map_write_id hall

lemma writeAll_id : ∀ (ms : List (Path × String)) (t : Tree),
    (∀ m ∈ ms, lookupTree t m.1 ≠ none ∧ ∀ e ∈ t, e.1 = m.1 → e = m) →
    writeAll ms t = t
  | [], _, _ => rfl
  | m :: ms, t, h => by
    have h1 := h m (List.mem_cons_self m ms)
    have hw : writeFile t m.1 m.2 = t := writeFile_id h1.1 h1.2
    rw [writeAll_cons, hw]
    exact writeAll_id ms t (fun m' hm' => h m' (List.mem_cons_of_mem m hm'))

lemma lookupTree_filter_pos (k : Path → Bool) {p : Path} (h : k p = true) :
    ∀ t : Tree, lookupTree (t.filter (fun e => k e.1)) p = lookupTree t p
  | [] => rfl
  | e :: t => by
    by_cases he : e.1 = p
    · have hk : k e.1 = true := he ▸ h
      rw [List.filter_cons, if_pos (by simpa using hk)]
      simp [lookupTree, he]
    · rw [List.filter_cons]
      by_cases hk : k e.1 = true
      · rw [if_pos (by simpa using hk)]
        simp only [lookupTree, he, if_false]
        exact lookupTree_filter_pos k h t
      · rw [if_neg (by simpa using hk)]
        simp only [lookupTree, he, if_false]
        exact lookupTree_filter_pos k h t

lemma lookupTree_filter_neg (k : Path → Bool) {p : Path} (h : k p = false) :
    ∀ t : Tree, lookupTree (t.filter (fun e => k e.1)) p = none
  | [] => rfl
  | e :: t => by
    by_cases he : e.1 = p
    · have hk : k e.1 = false := he ▸ h
      rw [List.filter_cons, if_neg (by simp [hk])]
      exact lookupTree_filter_neg k h t
    · rw [List.filter_cons]
      by_cases hk : k e.1 = true
      · rw [if_pos (by simpa using hk)]
        simp only [lookupTree, he, if_false]
        exact lookupTree_filter_neg k h t
      · rw [if_neg (by simpa using hk)]
        exact lookupTree_filter_neg k h t

lemma lookupTree_filter_keep {keys : List Path} {p : Path}
    (h : remove_if_excess keys p = false) (t : Tree) :
    lookupTree (t.filter (fun e => !remove_if_excess keys e.1)) p = lookupTree t p :=
  lookupTree_filter_pos (fun q => !remove_if_excess keys q)
    (by show (!remove_if_excess keys p) = true; rw [h]; rfl) t

lemma lookupTree_filter_remove {keys : List Path} {p : Path}
    (h : remove_if_excess keys p = true) (t : Tree) :
    lookupTree (t.filter (fun e => !remove_if_excess keys e.1)) p = none :=
  lookupTree_filter_neg (fun q => !remove_if_excess keys q)
    (by show (!remove_if_excess keys p) = false; rw [h]; rfl) t

lemma managedFileStep_mono {t : Tree} {errs : List Path} {e : Path × String}
    {p : Path} (h : p ∈ errs) : p ∈ managedFileStep t errs e := by
  unfold managedFileStep
  split
  · exact List.mem_append_left _ h
  · split
    · exact h
    · exact List.mem_append_left _ h

lemma managedFileStep_sub {t : Tree} {errs : List Path} {e : Path × String}
    {p : Path} (h : p ∈ managedFileStep t errs e) : p ∈ errs ∨ p = e.1 := by
  unfold managedFileStep at h
  split at h
  · simpa using List.mem_append.mp h
  · split at h
    · exact Or.inl h
    · simpa using List.mem_append.mp h

lemma foldl_managedFileStep_sub {t : Tree} :
    ∀ (ms : List (Path × String)) (errs : List Path) {q : Path},
    q ∈ ms.foldl (managedFileStep t) errs → q ∈ errs ∨ q ∈ ms.map Prod.fst
  | [], errs, q, h => Or.inl h
  | e :: ms, errs, q, h => by
    rw [List.foldl_cons] at h
    rcases foldl_managedFileStep_sub ms _ h with h' | h'
    · rcases managedFileStep_sub h' with h'' | h''
      · exact Or.inl h''
      · exact Or.inr (by simp [h''])
    · exact Or.inr (by simp [h'])

lemma mem_managedFileErrors_sub {t : Tree} {ms : List (Path × String)} {q : Path}
    (h : q ∈ managedFileErrors t ms) : q ∈ ms.map Prod.fst := by
  rcases foldl_managedFileStep_sub ms [] h with h' | h'
  · cases h'
  · exact h'

lemma foldl_managedFileStep_of_missing {t : Tree} :
    ∀ (ms : List (Path × String)) (errs : List Path) {p : Path} {c : String},
    ((p, c) ∈ ms ∧ lookupTree t p = none) ∨ p ∈ errs →
    p ∈ ms.foldl (managedFileStep t) errs
  | [], errs, p, c, h => by
    rcases h with ⟨hm, _⟩ | h
    · exact absurd hm (by simp)
    · exact h
  | e :: ms, errs, p, c, h => by
    rw [List.foldl_cons]
    rcases h with ⟨hm, hnone⟩ | hin
    · rcases List.mem_cons.mp hm with heq | hm'
      · refine foldl_managedFileStep_of_missing (c := c) ms _ (Or.inr ?_)
        subst heq
        simp [managedFileStep, hnone]
      · exact foldl_managedFileStep_of_missing ms _ (Or.inl ⟨hm', hnone⟩)
    · exact foldl_managedFileStep_of_missing (c := c) ms _
        (Or.inr (managedFileStep_mono hin))

lemma mem_managedFileErrors_of_missing {t : Tree} {ms : List (Path × String)}
    {p : Path} {c : String} (hm : (p, c) ∈ ms) (hnone : lookupTree t p = none) :
    p ∈ managedFileErrors t ms :=
  foldl_managedFileStep_of_missing ms [] (Or.inl ⟨hm, hnone⟩)

lemma foldl_managedFileStep_nil {t : Tree} :
    ∀ (ms : List (Path × String)) (errs : List Path),
    (∀ e ∈ ms, lookupTree t e.1 = some e.2) →
    ms.foldl (managedFileStep t) errs = errs
  | [], _, _ => rfl
  | e :: ms, errs, h => by
    have h1 := h e (List.mem_cons_self e ms)
    have hstep : managedFileStep t errs e = errs := by
      unfold managedFileStep
      rw [h1]
      simp
    rw [List.foldl_cons, hstep]
    exact foldl_managedFileStep_nil ms errs (fun e' he' => h e' (List.mem_cons_of_mem e he'))

lemma managedFileErrors_nil {t : Tree} {ms : List (Path × String)}
    (h : ∀ e ∈ ms, lookupTree t e.1 = some e.2) : managedFileErrors t ms = [] :=
  foldl_managedFileStep_nil ms [] h

lemma walk_reports_of_mem {rep : Path → Bool} {t : Tree} {p : Path}
    (h : p ∈ (t.filter (fun e => rep e.1)).map Prod.fst) : rep p = true := by
  rcases List.mem_map.mp h with ⟨e, he, hpe⟩
  have := (List.mem_filter.mp he).2
  rw [← hpe]
  simpa using this

lemma remove_if_excess_false_of_mem {keys : List Path} {p : Path} (h : p ∈ keys) :
    remove_if_excess keys p = false := by
  unfold remove_if_excess
  by_cases h1 : p.length = 1
  · rw [if_pos h1]
  · rw [if_neg h1]
    by_cases h2 : underIgnored p = true
    · rw [if_pos h2]
    · rw [if_neg h2]
      simp [h]

lemma remove_if_excess_false_of_ignored {keys : List Path} {p : Path}
    (h : underIgnored p = true) : remove_if_excess keys p = false := by
  unfold remove_if_excess
  by_cases h1 : p.length = 1
  · rw [if_pos h1]
  · rw [if_neg h1, if_pos h]

lemma remove_if_excess_true {keys : List Path} {p : Path} (h1 : ¬p.length = 1)
    (h2 : underIgnored p = false) (h3 : p ∉ keys) :
    remove_if_excess keys p = true := by
  unfold remove_if_excess
  rw [if_neg h1, if_neg (by simp [h2]), decide_eq_true h3]

lemma check_file_reports_false_of_not_remove {keys : List Path} {p : Path}
    (h : remove_if_excess keys p = false) : check_file_reports keys p = false := by
  unfold check_file_reports
  by_cases h1 : p.length = 1
  · rw [if_pos (Or.inl h1)]
  · by_cases h2 : underIgnored p = true
    · rw [if_pos (Or.inr h2)]
    · rw [if_neg (by rintro (hc | hc); exact h1 hc; exact h2 hc)]
      have hp : p ∈ keys := by
        by_contra hn
        rw [remove_if_excess_true h1 (by simpa using h2) hn] at h
        exact absurd h (by simp)
      by_cases h3 : suffixIsPyc (p.getLastD "") = true ∨ p.contains "__pycache__" = true
      · rw [if_pos h3]
      · rw [if_neg h3]
        simp [hp]

lemma check_file_reports_false_of_pyc {keys : List Path} {p : Path}
    (h : suffixIsPyc (p.getLastD "") = true ∨ p.contains "__pycache__" = true) :
    check_file_reports keys p = false := by
  unfold check_file_reports
  by_cases h1 : p.length = 1 ∨ underIgnored p = true
  · rw [if_pos h1]
  · rw [if_neg h1, if_pos h]

lemma check_file_reports_false_of_ignored {keys : List Path} {p : Path}
    (h : underIgnored p = true) : check_file_reports keys p = false := by
  unfold check_file_reports
  rw [if_pos (Or.inr h)]

lemma fix_eq {reg : Registry} {m : List (Path × String)} (t : Tree)
    (hm : collect_managed reg = .ok m) :
    fix reg t = .ok ((writeAll m t).filter
      (fun e => !remove_if_excess (m.map Prod.fst) e.1)) := by
  unfold fix
  rw [hm]
  rfl

lemma check_eq {reg : Registry} {m : List (Path × String)} (t : Tree)
    (hm : collect_managed reg = .ok m) :
    check reg t = .ok (managedFileErrors t m ++
      (t.filter (fun e => check_file_reports (m.map Prod.fst) e.1)).map Prod.fst) := by
  unfold check
  rw [hm]
  rfl

lemma collect_managed_mem : ∀ (reg : Registry) {m : List (Path × String)}
    {pkg : String} {imps : List Decl},
    collect_managed reg = .ok m → (pkg, imps) ∈ reg →
    ∃ c, renderPkg (pkgPath pkg) imps = .ok c ∧ (pkgPath pkg, c) ∈ m
  | [], _, _, _, _, hmem => absurd hmem (by simp)
  | r :: reg, m, pkg, imps, hm, hmem => by
    rw [collect_managed] at hm
    cases hf : renderPkg (pkgPath r.1) r.2 with
    | error g => rw [hf] at hm; exact Except.noConfusion hm
    | ok c =>
      rw [hf] at hm
      cases hr : collect_managed reg with
      | error g => rw [hr] at hm; exact Except.noConfusion hm
      | ok rest =>
        rw [hr] at hm
        have hm' : (pkgPath r.1, c) :: rest = m := Except.ok.inj hm
        rcases List.mem_cons.mp hmem with heq | hmem'
        · refine ⟨c, ?_, ?_⟩
          · rw [← heq] at hf
            exact hf
          · rw [← hm', ← heq]
            exact List.mem_cons_self _ _
        · obtain ⟨c', h1, h2⟩ := collect_managed_mem reg hr hmem'
          exact ⟨c', h1, by rw [← hm']; exact List.mem_cons_of_mem _ h2⟩

/-! ### Claims about the reconciler -/

/-- Claim C5: running `check` immediately after a successful `fix` reports
success: every managed file exists with its exact generated content and the
walk finds no unmanaged, unexcluded file, so the error list is empty, the
success message is printed, and the process exits 0. The registry is an
explicit input of the embedding, so it is, as in the claim, the same for
both runs. -/
theorem C5_check_after_fix (reg : Registry) (t : Tree) (m : List (Path × String))
    (t' : Tree)
    (hm : collect_managed reg = .ok m)
    (hnd : (m.map Prod.fst).Nodup)
    (hfix : fix reg t = .ok t') :
    check reg t' = .ok [] := by
  rw [fix_eq t hm] at hfix
  injection hfix with hfix
  subst hfix
  rw [check_eq _ hm]
  have hkeep : ∀ e ∈ m, lookupTree
      ((writeAll m t).filter (fun e' => !remove_if_excess (m.map Prod.fst) e'.1)) e.1 =
      some e.2 := by
    intro e he
    have hkey : e.1 ∈ m.map Prod.fst := List.mem_map_of_mem Prod.fst he
    have hrem : remove_if_excess (m.map Prod.fst) e.1 = false :=
      remove_if_excess_false_of_mem hkey
    rw [lookupTree_filter_keep hrem _]
    exact lookupTree_writeAll_mem m t hnd he
  have h1 : managedFileErrors
      ((writeAll m t).filter (fun e' => !remove_if_excess (m.map Prod.fst) e'.1)) m = [] :=
    managedFileErrors_nil hkeep
  have h2 : ((writeAll m t).filter
      (fun e' => !remove_if_excess (m.map Prod.fst) e'.1)).filter
      (fun e => check_file_reports (m.map Prod.fst) e.1) = [] := by
    rw [List.filter_eq_nil_iff]
    intro e he
    have hkeep' : (!remove_if_excess (m.map Prod.fst) e.1) = true :=
      (List.mem_filter.mp he).2
    have hrem : remove_if_excess (m.map Prod.fst) e.1 = false := by
      simpa using hkeep'
    simp [check_file_reports_false_of_not_remove hrem]
  rw [h1, h2]
  rfl

/-- Witness for C5 at a concrete registry and tree. -/
theorem C5_check_after_fix_witness :
    check [("pkg.sub", [⟨"pkg.impl", "Foo", ⟨none, false, none⟩⟩])]
      [(["stray.txt"], "junk"),
       (["pkg", "sub", "__init__.py"],
        "# ruff: noqa\n# This file is generated by aliases.py. Do not edit it manually!\nimport hopsworks.internal.aliases\nimport pkg.impl\nFoo = pkg.impl.Foo\n")] =
      .ok [] :=
  C5_check_after_fix [("pkg.sub", [⟨"pkg.impl", "Foo", ⟨none, false, none⟩⟩])]
    [(["stray.txt"], "junk"), (["sub", "stray.txt"], "junk")] _ _ (by rfl) (by decide) (by rfl)

/-- Claim C6: `fix` is idempotent: running it a second time rewrites every
managed file with content it already has and deletes nothing new, so the
resulting tree is equal to the tree after the first run. -/
theorem C6_fix_idempotent (reg : Registry) (t : Tree) (m : List (Path × String))
    (t' : Tree)
    (hm : collect_managed reg = .ok m)
    (hnd : (m.map Prod.fst).Nodup)
    (hfix : fix reg t = .ok t') :
    fix reg t' = .ok t' := by
  rw [fix_eq t hm] at hfix
  injection hfix with hfix
  subst hfix
  rw [fix_eq _ hm]
  have hWid : writeAll m
      ((writeAll m t).filter (fun e' => !remove_if_excess (m.map Prod.fst) e'.1)) =
      (writeAll m t).filter (fun e' => !remove_if_excess (m.map Prod.fst) e'.1) := by
    apply writeAll_id
    intro mm hmm
    constructor
    · have hkey : mm.1 ∈ m.map Prod.fst := List.mem_map_of_mem Prod.fst hmm
      have hrem : remove_if_excess (m.map Prod.fst) mm.1 = false :=
        remove_if_excess_false_of_mem hkey
      rw [lookupTree_filter_keep hrem _, lookupTree_writeAll_mem m t hnd hmm]
      simp
    · intro e he hep
      have he' : e ∈ writeAll m t := (List.mem_filter.mp he).1
      exact writeAll_entry_eq m t hnd hmm e he' hep
  rw [hWid]
  have hfid : ((writeAll m t).filter
      (fun e' => !remove_if_excess (m.map Prod.fst) e'.1)).filter
      (fun e' => !remove_if_excess (m.map Prod.fst) e'.1) =
      (writeAll m t).filter (fun e' => !remove_if_excess (m.map Prod.fst) e'.1) := by
    rw [List.filter_eq_self]
    intro e he
    exact (List.mem_filter.mp he).2
  rw [hfid]

/-- Witness for C6 at a concrete registry and tree. -/
theorem C6_fix_idempotent_witness :
    fix [("pkg.sub", [⟨"pkg.impl", "Foo", ⟨none, false, none⟩⟩])]
      [(["stray.txt"], "junk"),
       (["pkg", "sub", "__init__.py"],
        "# ruff: noqa\n# This file is generated by aliases.py. Do not edit it manually!\nimport hopsworks.internal.aliases\nimport pkg.impl\nFoo = pkg.impl.Foo\n")] =
      .ok [(["stray.txt"], "junk"),
       (["pkg", "sub", "__init__.py"],
        "# ruff: noqa\n# This file is generated by aliases.py. Do not edit it manually!\nimport hopsworks.internal.aliases\nimport pkg.impl\nFoo = pkg.impl.Foo\n")] :=
  C6_fix_idempotent [("pkg.sub", [⟨"pkg.impl", "Foo", ⟨none, false, none⟩⟩])]
    [(["stray.txt"], "junk"), (["sub", "stray.txt"], "junk")] _ _ (by rfl) (by decide) (by rfl)

/-- Counterexample to claim C7 as stated: a file under an ignored path (and
under a source root) is still reported by `check` when its path is itself a
managed destination with divergent content. Here the registry registers the
destination package `hopsworks`, whose generated path
`hopsworks/__init__.py` lies under the ignored path `hopsworks` and equals
the source root `hopsworks/__init__.py`, yet `check` reports it. -/
theorem C7_counterexample :
    underIgnored ["hopsworks", "__init__.py"] = true ∧
    check [("hopsworks", [])] [(["hopsworks", "__init__.py"], "x")] =
      .ok [["hopsworks", "__init__.py"]] :=
  ⟨rfl, rfl⟩

/-- Claim C7 (amended): a file under a configured source root or ignored
path whose path is not itself a managed destination is never deleted by
`fix` (its content survives unchanged) and never reported by `check`; a
managed destination under such a path can still be overwritten by `fix` and
reported by `check` for wrong content. -/
theorem C7_excluded_untouched (reg : Registry) (t : Tree) (m : List (Path × String))
    (t' : Tree) (errs : List Path) (p : Path) (c : String)
    (hm : collect_managed reg = .ok m)
    (hexc : underIgnored p = true)
    (hnm : p ∉ m.map Prod.fst)
    (hp : lookupTree t p = some c)
    (hfix : fix reg t = .ok t')
    (hchk : check reg t = .ok errs) :
    lookupTree t' p = some c ∧ p ∉ errs := by
  rw [fix_eq t hm] at hfix
  injection hfix with hfix
  subst hfix
  rw [check_eq t hm] at hchk
  injection hchk with hchk
  subst hchk
  constructor
  · have hrem : remove_if_excess (m.map Prod.fst) p = false :=
      remove_if_excess_false_of_ignored hexc
    rw [lookupTree_filter_keep hrem _, lookupTree_writeAll_not_mem m t hnm, hp]
  · intro hmem
    rcases List.mem_append.mp hmem with h | h
    · exact hnm (mem_managedFileErrors_sub h)
    · have hrep := walk_reports_of_mem h
      rw [check_file_reports_false_of_ignored hexc] at hrep
      exact absurd hrep (by simp)

/-- Witness for the amended C7 at a concrete registry and tree. -/
theorem C7_excluded_untouched_witness :
    lookupTree [(["tests", "keep.txt"], "data"),
      (["pkg", "__init__.py"],
       "# ruff: noqa\n# This file is generated by aliases.py. Do not edit it manually!\n")]
      ["tests", "keep.txt"] = some "data" ∧
    (["tests", "keep.txt"] : Path) ∉ [(["pkg", "__init__.py"] : Path)] :=
  C7_excluded_untouched [("pkg", [])] [(["tests", "keep.txt"], "data")] _ _ _
    ["tests", "keep.txt"] "data" (by rfl) (by decide) (by decide) (by rfl) (by rfl) (by rfl)

/-- Claim C8: a destination package registered with no declarations is
rendered as exactly the two header lines, is a key of the managed mapping,
is created by `fix` with that content, and is reported missing by `check`
when it does not exist. -/
theorem C8_empty_package (reg : Registry) (pkg : String) (m : List (Path × String))
    (t t' t₂ : Tree) (errs₂ : List Path)
    (hmem : (pkg, ([] : List Decl)) ∈ reg)
    (hm : collect_managed reg = .ok m)
    (hnd : (m.map Prod.fst).Nodup)
    (hfix : fix reg t = .ok t')
    (hmiss : lookupTree t₂ (pkgPath pkg) = none)
    (hchk : check reg t₂ = .ok errs₂) :
    (pkgPath pkg, header) ∈ m ∧
    lookupTree t' (pkgPath pkg) = some header ∧
    pkgPath pkg ∈ errs₂ := by
  obtain ⟨c, hc, hcm⟩ := collect_managed_mem reg hm hmem
  have hch : c = header := by
    have hre : renderPkg (pkgPath pkg) [] = .ok header := rfl
    rw [hre] at hc
    injection hc with hc
    exact hc.symm
  subst hch
  refine ⟨hcm, ?_, ?_⟩
  · rw [fix_eq t hm] at hfix
    injection hfix with hfix
    subst hfix
    have hkey : pkgPath pkg ∈ m.map Prod.fst := List.mem_map_of_mem Prod.fst hcm
    have hrem : remove_if_excess (m.map Prod.fst) (pkgPath pkg) = false :=
      remove_if_excess_false_of_mem hkey
    rw [lookupTree_filter_keep hrem _]
    exact lookupTree_writeAll_mem m t hnd hcm
  · rw [check_eq t₂ hm] at hchk
    injection hchk with hchk
    subst hchk
    exact List.mem_append_left _ (mem_managedFileErrors_of_missing hcm hmiss)

/-- Witness for C8 at a concrete registry and trees. -/
theorem C8_empty_package_witness :
    ((["pkg", "sub", "__init__.py"] : Path),
      "# ruff: noqa\n# This file is generated by aliases.py. Do not edit it manually!\n") ∈
      [((["pkg", "sub", "__init__.py"] : Path),
        "# ruff: noqa\n# This file is generated by aliases.py. Do not edit it manually!\n")] ∧
    lookupTree [(["pkg", "sub", "__init__.py"],
      "# ruff: noqa\n# This file is generated by aliases.py. Do not edit it manually!\n")]
      ["pkg", "sub", "__init__.py"] =
      some "# ruff: noqa\n# This file is generated by aliases.py. Do not edit it manually!\n" ∧
    (["pkg", "sub", "__init__.py"] : Path) ∈ [(["pkg", "sub", "__init__.py"] : Path)] :=
  C8_empty_package [("pkg.sub", [])] "pkg.sub" _ [] _ [] _
    (by decide) (by rfl) (by decide) (by rfl) (by rfl) (by rfl)

/-- Counterexample to claim C10 as stated: a file with a `__pycache__`
component is still reported by `check` when its path is itself a managed
destination with divergent content: registering the destination package
`a.__pycache__` makes `check` report `a/__pycache__/__init__.py`. -/
theorem C10_counterexample :
    (["a", "__pycache__", "__init__.py"] : Path).contains "__pycache__" = true ∧
    check [("a.__pycache__", [])] [(["a", "__pycache__", "__init__.py"], "x")] =
      .ok [["a", "__pycache__", "__init__.py"]] :=
  ⟨rfl, rfl⟩

/-- Claim C10 (amended): for a `.pyc` or `__pycache__` file that is not
itself a managed destination, `check` never reports it; but the deletion
walk of `fix` has no bytecode exemption, so `fix` deletes such a file
whenever it is not directly inside the root and not under a source root or
ignored path: the two walks treat bytecode files asymmetrically. -/
theorem C10_pyc_asymmetry (reg : Registry) (t : Tree) (m : List (Path × String))
    (t' : Tree) (errs : List Path) (p : Path)
    (hm : collect_managed reg = .ok m)
    (hpyc : suffixIsPyc (p.getLastD "") = true ∨ p.contains "__pycache__" = true)
    (hnm : p ∉ m.map Prod.fst)
    (hlen : ¬p.length = 1)
    (hexc : underIgnored p = false)
    (hfix : fix reg t = .ok t')
    (hchk : check reg t = .ok errs) :
    p ∉ errs ∧ lookupTree t' p = none := by
  rw [fix_eq t hm] at hfix
  injection hfix with hfix
  subst hfix
  rw [check_eq t hm] at hchk
  injection hchk with hchk
  subst hchk
  constructor
  · intro hmem
    rcases List.mem_append.mp hmem with h | h
    · exact hnm (mem_managedFileErrors_sub h)
    · have hrep := walk_reports_of_mem h
      rw [check_file_reports_false_of_pyc hpyc] at hrep
      exact absurd hrep (by simp)
  · have hrem : remove_if_excess (m.map Prod.fst) p = true :=
      remove_if_excess_true hlen hexc hnm
    exact lookupTree_filter_remove hrem _

/-- Witness for the amended C10 at a concrete registry and tree. -/
theorem C10_pyc_asymmetry_witness :
    (["d", "x.pyc"] : Path) ∉ [(["pkg", "__init__.py"] : Path)] ∧
    lookupTree [(["pkg", "__init__.py"],
      "# ruff: noqa\n# This file is generated by aliases.py. Do not edit it manually!\n")]
      ["d", "x.pyc"] = none :=
  C10_pyc_asymmetry [("pkg", [])] [(["d", "x.pyc"], "z")] _ _ _ ["d", "x.pyc"]
    (by rfl) (by decide) (by decide) (by decide) (by rfl) (by rfl) (by rfl)

end Aliases
